import Mathlib

/-!
Verification of the Mini-Compiler front end (lexer.cpp / parser.cpp).

The lexer is embedded over `List Char`: the C++ `Lexer` keeps a fixed
source string and a cursor `current_pos` that only moves forward, so the
state is represented by the suffix of the source starting at the cursor.
`std::isspace` / `isdigit` / `isalpha` / `isalnum` are the ASCII ("C"
locale) character classes.

The parser is embedded over the materialized token list plus a cursor
index.  `peek()` in the C++ is an unchecked `tokens[current_token_idx]`;
it is modelled as `List.get?`, and an out-of-bounds access makes the
whole run return `none` (the outer `Option` layer).  A returned
`some (r, i)` means the run performed no out-of-bounds access, finished
with cursor `i`, and produced `r`, where `r : Option AstNode` models the
C++ `std::unique_ptr<AstNode>` result (`none` = `nullptr`, i.e. parse
failure).  AST child pointers are likewise `Option AstNode`, since
`unique_ptr` children may be null (`parseExpression` does not null-check
`left` before folding it into a `BinaryOpNode`).

The `while` loop of `parseExpression` is embedded as `parseExpressionLoop`
with an explicit fuel argument, called with fuel `tokens.length + 1`;
every iteration moves the cursor forward by two while it stays in bounds,
so this fuel is never exhausted (`parseExpressionLoop_fuel_stable` below
makes the fuel choice irrelevant).
-/

/-- ASCII `std::isspace` ("C" locale): space, \t, \n, \v, \f, \r. -/
def isSpace (c : Char) : Bool :=
  c = ' ' || c = '\t' || c = '\n' || c = '\x0b' || c = '\x0c' || c = '\r'

/-- ASCII `std::isdigit`. -/
def isDigit (c : Char) : Bool :=
  '0' ≤ c && c ≤ '9'

/-- ASCII `std::isalpha`. -/
def isAlpha (c : Char) : Bool :=
  ('a' ≤ c && c ≤ 'z') || ('A' ≤ c && c ≤ 'Z')

/-- ASCII `std::isalnum`. -/
def isAlnum (c : Char) : Bool :=
  isAlpha c || isDigit c

/-- Model of the `enum class TokenType` of lexer.cpp / parser.cpp. -/
inductive TokenType where
  | KEYWORD_INT
  | IDENTIFIER
  | INTEGER_LITERAL
  | OPERATOR_PLUS
  | OPERATOR_MINUS
  | OPERATOR_MULTIPLY
  | OPERATOR_DIVIDE
  | OPERATOR_ASSIGN
  | PUNCTUATION_SEMICOLON
  | END_OF_FILE
  | UNKNOWN
deriving DecidableEq

/-- Model of `struct Token \x7b TokenType type; std::string value; \x7d`. -/
structure Token where
  type : TokenType
  value : String
deriving DecidableEq

/-- Model of `Lexer::skipWhitespace`: advance the cursor over whitespace. -/
def skipWhitespace (s : List Char) : List Char :=
  s.dropWhile isSpace

/-- Model of `Lexer::readInteger`: the maximal digit run at the cursor. -/
def readInteger (s : List Char) : Token × List Char :=
  (⟨.INTEGER_LITERAL, String.mk (s.takeWhile isDigit)⟩, s.dropWhile isDigit)

/-- Model of `Lexer::readIdentifierOrKeyword`: the maximal alphanumeric run at the
cursor; the exact lexeme `int` is the keyword, anything else an
identifier. -/
def readIdentifierOrKeyword (s : List Char) : Token × List Char :=
  let value := String.mk (s.takeWhile isAlnum)
  if value = "int" then
    (⟨.KEYWORD_INT, value⟩, s.dropWhile isAlnum)
  else
    (⟨.IDENTIFIER, value⟩, s.dropWhile isAlnum)

/-- Model of `Lexer::getNextToken`: skip whitespace, then dispatch on the current
character.  Returns the token together with the new lexer state (the
remaining suffix of the source). -/
def getNextToken (s : List Char) : Token × List Char :=
  match skipWhitespace s with
  | [] => (⟨.END_OF_FILE, ""⟩, [])
  | c :: rest =>
    if c = '+' then (⟨.OPERATOR_PLUS, "+"⟩, rest)
    else if c = '-' then (⟨.OPERATOR_MINUS, "-"⟩, rest)
    else if c = '*' then (⟨.OPERATOR_MULTIPLY, "*"⟩, rest)
    else if c = '/' then (⟨.OPERATOR_DIVIDE, "/"⟩, rest)
    else if c = '=' then (⟨.OPERATOR_ASSIGN, "="⟩, rest)
    else if c = ';' then (⟨.PUNCTUATION_SEMICOLON, ";"⟩, rest)
    else if isDigit c then readInteger (c :: rest)
    else if isAlpha c then readIdentifierOrKeyword (c :: rest)
    else (⟨.UNKNOWN, String.mk [c]⟩, rest)

/-- The driver loop of `main` (parser.cpp lines 327-331): collect tokens
up to and including the first `END_OF_FILE`.  The fuel `s.length + 1`
always suffices since every non-`END_OF_FILE` token consumes at least one
character. -/
def tokenizeAux : Nat → List Char → List Token
  | 0, _ => []
  | fuel + 1, s =>
    match getNextToken s with
    | (t, s') => if t.type = .END_OF_FILE then [t] else t :: tokenizeAux fuel s'

/-- Exhaust the lexer: the token sequence handed to the parser,
terminated by the `END_OF_FILE` token. -/
def tokenize (s : List Char) : List Token :=
  tokenizeAux (s.length + 1) s

/-- The lexer state after `n` calls to `getNextToken`, starting from
source suffix `s`. -/
def lexerStateAt : List Char → Nat → List Char
  | s, 0 => s
  | s, n + 1 => lexerStateAt (getNextToken s).2 n

/-- The token returned by the `(n+1)`-st call to `getNextToken`. -/
def tokenAt (s : List Char) (n : Nat) : Token :=
  (getNextToken (lexerStateAt s n)).1

/-- Concatenation of the lexemes of a token list, as characters. -/
def lexemes (toks : List Token) : List Char :=
  (toks.map fun t => t.value.toList).flatten

/-- AST node hierarchy of parser.cpp (`NumberNode`, `BinaryOpNode`,
`VarDeclNode`).  Child pointers are `std::unique_ptr<AstNode>`, hence
nullable: they are modelled as `Option AstNode`. -/
inductive AstNode where
  | NumberNode (token : Token)
  | BinaryOpNode (left : Option AstNode) (op : Token) (right : Option AstNode)
  | VarDeclNode (type : Token) (identifier : Token) (expression : Option AstNode)

/-- Result of one parser routine: `none` means the run performed an
out-of-bounds `peek` (undefined behavior in the C++); `some (r, i)` means
the run finished with cursor `i` and C++ return value `r` (`none` =
`nullptr`). -/
abbrev ParseResult := Option (Option AstNode × Nat)

/-- Model of `Parser::peek`: the unchecked read `tokens[current_token_idx]`. -/
def peek (tokens : List Token) (idx : Nat) : Option Token :=
  tokens.get? idx

/-- Model of `Parser::advance`: `if (current_token_idx < tokens.size()) current_token_idx++`. -/
def advance (tokens : List Token) (idx : Nat) : Nat :=
  if idx < tokens.length then idx + 1 else idx

/-- Model of `Parser::parseTerm`: succeeds only on an `INTEGER_LITERAL` token. -/
def parseTerm (tokens : List Token) (idx : Nat) : ParseResult :=
  match peek tokens idx with
  | none => none
  | some token =>
    if token.type = .INTEGER_LITERAL then
      some (some (.NumberNode token), advance tokens idx)
    else
      some (none, idx)

/-- The `while` loop of `Parser::parseExpression`: while the current
token is `+` or `-`, consume it, parse another term (failing if that
fails) and left-fold into a `BinaryOpNode`.  `left` is not null-checked,
exactly as in the C++.  The fuel argument only bounds the iteration
count; callers pass `tokens.length + 1`, which is never exhausted
(see `parseExpressionLoop_fuel_stable`). -/
def parseExpressionLoop : Nat → List Token → Option AstNode → Nat → ParseResult
  | 0, _, _, _ => none
  | fuel + 1, tokens, left, idx =>
    match peek tokens idx with
    | none => none
    | some op =>
      if op.type = .OPERATOR_PLUS ∨ op.type = .OPERATOR_MINUS then
        match parseTerm tokens (advance tokens idx) with
        | none => none
        | some (none, idx') => some (none, idx')
        | some (some right, idx') =>
          parseExpressionLoop fuel tokens
            (some (.BinaryOpNode left op (some right))) idx'
      else
        some (left, idx)

/-- Model of `Parser::parseExpression`: one term, then the `+`/`-` fold loop. -/
def parseExpression (tokens : List Token) (idx : Nat) : ParseResult :=
  match parseTerm tokens idx with
  | none => none
  | some (left, idx') => parseExpressionLoop (tokens.length + 1) tokens left idx'

/-- Model of `Parser::parseVariableDeclaration`: `int IDENT = expression ;`. -/
def parseVariableDeclaration (tokens : List Token) (idx : Nat) : ParseResult :=
  match peek tokens idx with
  | none => none
  | some type =>
    let idx1 := advance tokens idx
    match peek tokens idx1 with
    | none => none
    | some identifier =>
      if identifier.type ≠ .IDENTIFIER then
        some (none, idx1)
      else
        let idx2 := advance tokens idx1
        match peek tokens idx2 with
        | none => none
        | some eq =>
          if eq.type ≠ .OPERATOR_ASSIGN then
            some (none, idx2)
          else
            match parseExpression tokens (advance tokens idx2) with
            | none => none
            | some (none, idx3) => some (none, idx3)
            | some (some expression, idx3) =>
              match peek tokens idx3 with
              | none => none
              | some semi =>
                if semi.type ≠ .PUNCTUATION_SEMICOLON then
                  some (none, idx3)
                else
                  some (some (.VarDeclNode type identifier (some expression)),
                        advance tokens idx3)

/-- Model of `Parser::parseStatement`: dispatches solely on `KEYWORD_INT`. -/
def parseStatement (tokens : List Token) (idx : Nat) : ParseResult :=
  match peek tokens idx with
  | none => none
  | some t =>
    if t.type = .KEYWORD_INT then parseVariableDeclaration tokens idx
    else some (none, idx)

/-- Model of `Parser::parse`: parse one statement from cursor 0; only the returned
tree (not the final cursor) is handed to the caller. -/
def parse (tokens : List Token) : Option (Option AstNode) :=
  match parseStatement tokens 0 with
  | none => none
  | some (r, _) => some r

/-- The C8 node invariant, checked recursively over a (nullable) tree:
every `BinaryOpNode` operator is `+` or `-`, every `VarDeclNode` has an
`int` type token and an identifier token, every `NumberNode` wraps an
integer literal. -/
def goodTree : Option AstNode → Bool
  | none => true
  | some (.NumberNode t) => t.type == .INTEGER_LITERAL
  | some (.BinaryOpNode l op r) =>
      (op.type == .OPERATOR_PLUS || op.type == .OPERATOR_MINUS) &&
        goodTree l && goodTree r
  | some (.VarDeclNode ty idn e) =>
      (ty.type == .KEYWORD_INT) && (idn.type == .IDENTIFIER) && goodTree e

/-- C1: tokenizing `"int result = 10 + 20;"` to `END_OF_FILE` and parsing
the collected token sequence yields a `VarDeclNode` with identifier
lexeme `result` whose initializer is a `BinaryOpNode` with operator
lexeme `+`, left child `NumberNode` with lexeme `10`, right child
`NumberNode` with lexeme `20`. -/
theorem claim_C1_grammar_acceptance :
    parse (tokenize "int result = 10 + 20;".toList) =
      some (some (.VarDeclNode ⟨.KEYWORD_INT, "int"⟩ ⟨.IDENTIFIER, "result"⟩
        (some (.BinaryOpNode (some (.NumberNode ⟨.INTEGER_LITERAL, "10"⟩))
          ⟨.OPERATOR_PLUS, "+"⟩ (some (.NumberNode ⟨.INTEGER_LITERAL, "20"⟩)))))) := rfl

/-- C2: `"int x = 1 + 2 - 3;"` parses left-associatively: the outermost
initializer node is a `BinaryOpNode` with operator lexeme `-`, its left
child the `BinaryOpNode` with operator `+` over `1` and `2`, and its
right child the `NumberNode` with lexeme `3`. -/
theorem claim_C2_left_associativity :
    parse (tokenize "int x = 1 + 2 - 3;".toList) =
      some (some (.VarDeclNode ⟨.KEYWORD_INT, "int"⟩ ⟨.IDENTIFIER, "x"⟩
        (some (.BinaryOpNode
          (some (.BinaryOpNode (some (.NumberNode ⟨.INTEGER_LITERAL, "1"⟩))
            ⟨.OPERATOR_PLUS, "+"⟩ (some (.NumberNode ⟨.INTEGER_LITERAL, "2"⟩))))
          ⟨.OPERATOR_MINUS, "-"⟩
          (some (.NumberNode ⟨.INTEGER_LITERAL, "3"⟩)))))) := rfl

/-- C3: each of `"int = 5;"`, `"int x 5;"`, `"int x = ;"`, `"int x = 5"`
tokenizes and then parses to a failure: `parse` returns no tree
(`some none` = a completed run whose C++ result is `nullptr`). -/
theorem claim_C3_failure_cases :
    parse (tokenize "int = 5;".toList) = some none ∧
    parse (tokenize "int x 5;".toList) = some none ∧
    parse (tokenize "int x = ;".toList) = some none ∧
    parse (tokenize "int x = 5".toList) = some none :=
  ⟨rfl, rfl, rfl, rfl⟩

/-- C4 counterexample: on the one-token sequence, cursor 0 is the final
valid index, yet `advance` moves the cursor to 1 — the claim that
`advance` is a no-op at the sequence's final index is false. -/
theorem claim_C4_counterexample :
    ¬ advance [Token.mk .END_OF_FILE ""] 0 = 0 := by decide

/-- C4 (amended): `advance` moves the cursor forward by exactly one
whenever the cursor is strictly below the sequence length — including at
the final valid index — and is a no-op only once the cursor is at or past
the sequence length. -/
theorem claim_C4_advance_amended (tokens : List Token) (idx : Nat) :
    (idx < tokens.length → advance tokens idx = idx + 1) ∧
    (tokens.length ≤ idx → advance tokens idx = idx) := by
  refine ⟨fun h => ?_, fun h => ?_⟩
  · simp [advance, h]
  · simp [advance, Nat.not_lt.mpr h]

/-- C4 witness: the amended statement evaluated on a one-token sequence
at cursor 0 (in bounds) and cursor 1 (past the end). -/
theorem claim_C4_witness :
    advance [Token.mk .END_OF_FILE ""] 0 = 0 + 1 ∧
    advance [Token.mk .END_OF_FILE ""] 1 = 1 :=
  ⟨(claim_C4_advance_amended [Token.mk .END_OF_FILE ""] 0).1 (by decide),
   (claim_C4_advance_amended [Token.mk .END_OF_FILE ""] 1).2 (by decide)⟩

/-- Alphabetic characters are not digits (the ASCII ranges are disjoint). -/
lemma isDigit_eq_false_of_isAlpha {c : Char} (h : isAlpha c = true) :
    isDigit c = false := by
  simp only [isAlpha, Bool.or_eq_true, Bool.and_eq_true, decide_eq_true_eq] at h
  by_contra hd
  rw [Bool.not_eq_false] at hd
  simp only [isDigit, Bool.and_eq_true, decide_eq_true_eq] at hd
  rcases h with ⟨h1, _⟩ | ⟨h1, _⟩ <;> exact absurd (le_trans h1 hd.2) (by decide)

/-- C6: when the character under the cursor (after whitespace skipping)
is a letter, the produced token's kind is `KEYWORD_INT` exactly when its
lexeme is the string `int`, and `IDENTIFIER` exactly otherwise; the
lexeme is the maximal alphanumeric run at the cursor. -/
theorem claim_C6_keyword_exactness (s : List Char) (c : Char) (rest : List Char)
    (hdrop : skipWhitespace s = c :: rest) (halpha : isAlpha c = true) :
    ((getNextToken s).1.type = .KEYWORD_INT ↔ (getNextToken s).1.value = "int") ∧
    ((getNextToken s).1.type = .IDENTIFIER ↔ ¬ (getNextToken s).1.value = "int") ∧
    (getNextToken s).1.value = String.mk ((c :: rest).takeWhile isAlnum) := by
  have hplus : c ≠ '+' := fun h => absurd (h ▸ halpha) (by decide)
  have hminus : c ≠ '-' := fun h => absurd (h ▸ halpha) (by decide)
  have hstar : c ≠ '*' := fun h => absurd (h ▸ halpha) (by decide)
  have hslash : c ≠ '/' := fun h => absurd (h ▸ halpha) (by decide)
  have hassign : c ≠ '=' := fun h => absurd (h ▸ halpha) (by decide)
  have hsemi : c ≠ ';' := fun h => absurd (h ▸ halpha) (by decide)
  have hdig := isDigit_eq_false_of_isAlpha halpha
  simp only [getNextToken, hdrop, hplus, hminus, hstar, hslash, hassign, hsemi,
    if_false, hdig, halpha, if_true, ite_false, ite_true]
  by_cases hint : String.mk ((c :: rest).takeWhile isAlnum) = "int" <;>
    simp [readIdentifierOrKeyword, hint]

/-- C6 witness: scanning `int2` produces an `IDENTIFIER` whose lexeme is
the full run `int2`, not the keyword. -/
theorem claim_C6_witness :
    ((getNextToken "int2".toList).1.type = .KEYWORD_INT ↔
      (getNextToken "int2".toList).1.value = "int") ∧
    ((getNextToken "int2".toList).1.type = .IDENTIFIER ↔
      ¬ (getNextToken "int2".toList).1.value = "int") ∧
    (getNextToken "int2".toList).1.value =
      String.mk (('i' :: "nt2".toList).takeWhile isAlnum) :=
  claim_C6_keyword_exactness "int2".toList 'i' "nt2".toList rfl (by decide)

/-- The head of a non-empty `dropWhile` result falsifies the predicate. -/
lemma head_false_of_dropWhile_cons {p : Char → Bool} {s rest : List Char} {c : Char}
    (h : s.dropWhile p = c :: rest) : p c = false := by
  have hh := List.head?_dropWhile_not p s
  rw [h] at hh
  simpa using hh

/-- Skipped whitespace never carries non-whitespace characters: filtering
out whitespace commutes with `skipWhitespace`. -/
lemma filter_skipWhitespace (s : List Char) :
    s.filter (fun c => !isSpace c) = (skipWhitespace s).filter (fun c => !isSpace c) := by
  induction s with
  | nil => rfl
  | cons c rest ih =>
    by_cases h : isSpace c = true
    · have h2 : skipWhitespace (c :: rest) = skipWhitespace rest := by
        simp [skipWhitespace, List.dropWhile_cons, h]
      rw [h2, ← ih, List.filter_cons]
      simp [h]
    · have h2 : skipWhitespace (c :: rest) = c :: rest := by
        simp [skipWhitespace, List.dropWhile_cons, h]
      rw [h2]

/-- Filtering out whitespace splits along a `takeWhile` chunk whose
predicate implies non-whitespace. -/
lemma filter_chunk (q : Char → Bool) (l : List Char)
    (hq : ∀ c, q c = true → isSpace c = false) :
    l.filter (fun c => !isSpace c) =
      l.takeWhile q ++ (l.dropWhile q).filter (fun c => !isSpace c) := by
  conv_lhs => rw [← List.takeWhile_append_dropWhile (p := q) (l := l)]
  rw [List.filter_append]
  congr 1
  rw [List.filter_eq_self]
  intro a ha
  simp [hq a (List.mem_takeWhile_imp ha)]

/-- Digits are not whitespace. -/
lemma isSpace_eq_false_of_isDigit {c : Char} (h : isDigit c = true) :
    isSpace c = false := by
  by_contra hs
  rw [Bool.not_eq_false] at hs
  simp only [isSpace, Bool.or_eq_true, decide_eq_true_eq] at hs
  rcases hs with ((((rfl | rfl) | rfl) | rfl) | rfl) | rfl <;> exact absurd h (by decide)

/-- Alphanumeric characters are not whitespace. -/
lemma isSpace_eq_false_of_isAlnum {c : Char} (h : isAlnum c = true) :
    isSpace c = false := by
  by_contra hs
  rw [Bool.not_eq_false] at hs
  simp only [isSpace, Bool.or_eq_true, decide_eq_true_eq] at hs
  rcases hs with ((((rfl | rfl) | rfl) | rfl) | rfl) | rfl <;> exact absurd h (by decide)

/-- The function `readIdentifierOrKeyword` always yields a keyword-or-identifier token
whose lexeme is the maximal alphanumeric run, leaving the rest. -/
lemma readIdentifierOrKeyword_spec (l : List Char) :
    ((readIdentifierOrKeyword l).1.type = .KEYWORD_INT ∨
      (readIdentifierOrKeyword l).1.type = .IDENTIFIER) ∧
    (readIdentifierOrKeyword l).1.value = String.mk (l.takeWhile isAlnum) ∧
    (readIdentifierOrKeyword l).2 = l.dropWhile isAlnum := by
  by_cases h : String.mk (l.takeWhile isAlnum) = "int" <;>
    simp [readIdentifierOrKeyword, h]

/-- One `getNextToken` step: at end of input it returns the empty-lexeme
`END_OF_FILE` token over an empty residual state (and no non-whitespace
characters remain); otherwise its lexeme accounts for exactly the
non-whitespace characters it consumed, and it consumes at least one
character. -/
lemma getNextToken_step (s : List Char) :
    ((getNextToken s).1.type = .END_OF_FILE →
      (getNextToken s).1 = ⟨.END_OF_FILE, ""⟩ ∧ (getNextToken s).2 = [] ∧
      s.filter (fun c => !isSpace c) = []) ∧
    ((getNextToken s).1.type ≠ .END_OF_FILE →
      (getNextToken s).1.value.toList ++
          ((getNextToken s).2.filter (fun c => !isSpace c)) =
        s.filter (fun c => !isSpace c) ∧
      (getNextToken s).2.length < s.length) := by
  cases hdrop : skipWhitespace s with
  | nil =>
    have hg : getNextToken s = (⟨.END_OF_FILE, ""⟩, []) := by
      simp [getNextToken, hdrop]
    rw [hg]
    refine ⟨fun _ => ⟨rfl, rfl, ?_⟩, fun h => absurd rfl h⟩
    rw [filter_skipWhitespace s, hdrop]
    rfl
  | cons c rest =>
    have hws : (skipWhitespace s).length ≤ s.length :=
      (List.dropWhile_sublist (l := s) (p := isSpace)).length_le
    rw [hdrop] at hws
    have hlen : rest.length < s.length := by
      simp at hws
      omega
    have hcfalse : isSpace c = false := head_false_of_dropWhile_cons hdrop
    have hfs : s.filter (fun x => !isSpace x) = c :: rest.filter (fun x => !isSpace x) := by
      rw [filter_skipWhitespace s, hdrop, List.filter_cons_of_pos]
      simp [hcfalse]
    by_cases h1 : c = '+'
    · subst h1
      have hg : getNextToken s = (⟨.OPERATOR_PLUS, "+"⟩, rest) := by
        simp [getNextToken, hdrop]
      rw [hg]
      refine ⟨fun h => by simp at h, fun _ => ⟨?_, hlen⟩⟩
      rw [hfs]
      rfl
    · by_cases h2 : c = '-'
      · subst h2
        have hg : getNextToken s = (⟨.OPERATOR_MINUS, "-"⟩, rest) := by
          simp [getNextToken, hdrop]
        rw [hg]
        refine ⟨fun h => by simp at h, fun _ => ⟨?_, hlen⟩⟩
        rw [hfs]
        rfl
      · by_cases h3 : c = '*'
        · subst h3
          have hg : getNextToken s = (⟨.OPERATOR_MULTIPLY, "*"⟩, rest) := by
            simp [getNextToken, hdrop]
          rw [hg]
          refine ⟨fun h => by simp at h, fun _ => ⟨?_, hlen⟩⟩
          rw [hfs]
          rfl
        · by_cases h4 : c = '/'
          · subst h4
            have hg : getNextToken s = (⟨.OPERATOR_DIVIDE, "/"⟩, rest) := by
              simp [getNextToken, hdrop]
            rw [hg]
            refine ⟨fun h => by simp at h, fun _ => ⟨?_, hlen⟩⟩
            rw [hfs]
            rfl
          · by_cases h5 : c = '='
            · subst h5
              have hg : getNextToken s = (⟨.OPERATOR_ASSIGN, "="⟩, rest) := by
                simp [getNextToken, hdrop]
              rw [hg]
              refine ⟨fun h => by simp at h, fun _ => ⟨?_, hlen⟩⟩
              rw [hfs]
              rfl
            · by_cases h6 : c = ';'
              · subst h6
                have hg : getNextToken s = (⟨.PUNCTUATION_SEMICOLON, ";"⟩, rest) := by
                  simp [getNextToken, hdrop]
                rw [hg]
                refine ⟨fun h => by simp at h, fun _ => ⟨?_, hlen⟩⟩
                rw [hfs]
                rfl
              · by_cases hd : isDigit c = true
                · have hg : getNextToken s = readInteger (c :: rest) := by
                    simp [getNextToken, hdrop, h1, h2, h3, h4, h5, h6, hd]
                  rw [hg]
                  have hfc := filter_chunk isDigit (c :: rest)
                    (fun x hx => isSpace_eq_false_of_isDigit hx)
                  refine ⟨fun h => by simp [readInteger] at h, fun _ => ⟨?_, ?_⟩⟩
                  · show ((c :: rest).takeWhile isDigit) ++
                      ((c :: rest).dropWhile isDigit).filter (fun x => !isSpace x) =
                      s.filter (fun x => !isSpace x)
                    rw [filter_skipWhitespace s, hdrop, hfc]
                  · show ((c :: rest).dropWhile isDigit).length < s.length
                    rw [List.dropWhile_cons_of_pos hd]
                    have := (List.dropWhile_sublist (l := rest) (p := isDigit)).length_le
                    omega
                · by_cases ha : isAlpha c = true
                  · have hg : getNextToken s = readIdentifierOrKeyword (c :: rest) := by
                      simp [getNextToken, hdrop, h1, h2, h3, h4, h5, h6, hd, ha]
                    rw [hg]
                    obtain ⟨htype, hval, hrest⟩ := readIdentifierOrKeyword_spec (c :: rest)
                    have han : isAlnum c = true := by simp [isAlnum, ha]
                    have hfc := filter_chunk isAlnum (c :: rest)
                      (fun x hx => isSpace_eq_false_of_isAlnum hx)
                    refine ⟨fun h => ?_, fun _ => ⟨?_, ?_⟩⟩
                    · rcases htype with ht | ht <;> rw [h] at ht <;> exact absurd ht (by decide)
                    · rw [hval, hrest]
                      show ((c :: rest).takeWhile isAlnum) ++
                        ((c :: rest).dropWhile isAlnum).filter (fun x => !isSpace x) =
                        s.filter (fun x => !isSpace x)
                      rw [filter_skipWhitespace s, hdrop, hfc]
                    · rw [hrest, List.dropWhile_cons_of_pos han]
                      have := (List.dropWhile_sublist (l := rest) (p := isAlnum)).length_le
                      omega
                  · have hg : getNextToken s = (⟨.UNKNOWN, String.mk [c]⟩, rest) := by
                      simp [getNextToken, hdrop, h1, h2, h3, h4, h5, h6, hd, ha]
                    rw [hg]
                    refine ⟨fun h => by simp at h, fun _ => ⟨?_, hlen⟩⟩
                    rw [hfs]
                    rfl

/-- Iterating the lexer one more time applies `getNextToken` to the last
state. -/
lemma lexerStateAt_succ (s : List Char) (n : Nat) :
    lexerStateAt s (n + 1) = (getNextToken (lexerStateAt s n)).2 := by
  induction n generalizing s with
  | zero => rfl
  | succ n ih =>
    show lexerStateAt (getNextToken s).2 (n + 1) = _
    rw [ih]
    rfl

/-- Splitting an iterated lexer run. -/
lemma lexerStateAt_add (s : List Char) (a b : Nat) :
    lexerStateAt s (a + b) = lexerStateAt (lexerStateAt s a) b := by
  induction b with
  | zero => rfl
  | succ b ih =>
    show lexerStateAt s ((a + b) + 1) = _
    rw [lexerStateAt_succ, ih, ← lexerStateAt_succ]

/-- The empty lexer state is absorbing. -/
lemma lexerStateAt_nil (n : Nat) : lexerStateAt [] n = [] := by
  induction n with
  | zero => rfl
  | succ n ih => exact ih

/-- The lexer reaches `END_OF_FILE` after finitely many calls. -/
lemma exists_eof (s : List Char) : ∃ n, (tokenAt s n).type = .END_OF_FILE := by
  suffices h : ∀ L (u : List Char), u.length ≤ L → ∃ n, (tokenAt u n).type = .END_OF_FILE by
    exact h s.length s le_rfl
  intro L
  induction L with
  | zero =>
    intro u hu
    have : u = [] := List.eq_nil_of_length_eq_zero (Nat.le_zero.mp hu)
    subst this
    exact ⟨0, rfl⟩
  | succ L ihL =>
    intro u hu
    by_cases h : (getNextToken u).1.type = .END_OF_FILE
    · exact ⟨0, h⟩
    · obtain ⟨-, hlt⟩ := (getNextToken_step u).2 h
      obtain ⟨n, hn⟩ := ihL (getNextToken u).2 (by omega)
      exact ⟨n + 1, hn⟩

/-- Once the lexer has reported `END_OF_FILE`, every later call returns
the `END_OF_FILE` token with empty lexeme again. -/
lemma eof_stable (s : List Char) (n m : Nat) (hnm : n ≤ m)
    (h : (tokenAt s n).type = .END_OF_FILE) :
    tokenAt s m = ⟨.END_OF_FILE, ""⟩ := by
  obtain ⟨k, rfl⟩ := Nat.exists_eq_add_of_le hnm
  have h0 := (getNextToken_step (lexerStateAt s n)).1 h
  cases k with
  | zero => exact h0.1
  | succ k =>
    have hsplit : n + (k + 1) = (n + 1) + k := by omega
    have hstate : lexerStateAt s (n + (k + 1)) = [] := by
      rw [hsplit, lexerStateAt_add s (n + 1) k, lexerStateAt_succ, h0.2.1,
        lexerStateAt_nil]
    show (getNextToken (lexerStateAt s (n + (k + 1)))).1 = _
    rw [hstate]
    rfl

/-- With fuel exceeding the number of remaining characters, the driver
loop's lexeme concatenation is exactly the non-whitespace content. -/
lemma lexemes_tokenizeAux (fuel : Nat) :
    ∀ s : List Char, s.length < fuel →
      lexemes (tokenizeAux fuel s) = s.filter (fun c => !isSpace c) := by
  induction fuel with
  | zero => intro s hs; omega
  | succ fuel ih =>
    intro s hs
    have hstep := getNextToken_step s
    cases hgt : getNextToken s with
    | mk t s' =>
      simp only [hgt] at hstep
      by_cases h : t.type = .END_OF_FILE
      · obtain ⟨ht, -, hfilter⟩ := hstep.1 h
        have h2 : tokenizeAux (fuel + 1) s = [t] := by
          simp [tokenizeAux, hgt, h]
        rw [h2, hfilter, ht]
        rfl
      · obtain ⟨hacc, hlt⟩ := hstep.2 h
        have h2 : tokenizeAux (fuel + 1) s = t :: tokenizeAux fuel s' := by
          simp [tokenizeAux, hgt, h]
        have h3 : lexemes (t :: tokenizeAux fuel s') =
            t.value.toList ++ lexemes (tokenizeAux fuel s') := by
          simp [lexemes]
        rw [h2, h3, ih s' (by omega)]
        exact hacc

/-- The lexeme concatenation of the full token sequence is the
non-whitespace content of the source. -/
lemma lexemes_tokenize (s : List Char) :
    lexemes (tokenize s) = s.filter (fun c => !isSpace c) :=
  lexemes_tokenizeAux (s.length + 1) s (by omega)

/-- C7: on every input, repeated `getNextToken` calls reach
`END_OF_FILE` after finitely many calls; once reached, every later call
returns the `END_OF_FILE` token with empty lexeme again; and every
non-whitespace character of the input occurs in exactly one returned
lexeme, in order (the concatenated lexemes are exactly the input minus
whitespace). -/
theorem claim_C7_tokenizer_totality (s : List Char) :
    (∃ n, (tokenAt s n).type = .END_OF_FILE) ∧
    (∀ n m, n ≤ m → (tokenAt s n).type = .END_OF_FILE →
      tokenAt s m = ⟨.END_OF_FILE, ""⟩) ∧
    lexemes (tokenize s) = s.filter (fun c => !isSpace c) :=
  ⟨exists_eof s, fun n m hnm h => eof_stable s n m hnm h, lexemes_tokenize s⟩

/-- C7 witness: the totality statement instantiated on a whitespace-only
input, with the post-end-of-input clause applied at calls 0 and 2. -/
theorem claim_C7_witness :
    tokenAt " ".toList 2 = ⟨.END_OF_FILE, ""⟩ ∧
    lexemes (tokenize " a b ".toList) =
      " a b ".toList.filter (fun c => !isSpace c) :=
  ⟨(claim_C7_tokenizer_totality " ".toList).2.1 0 2 (by omega) (by decide),
   (claim_C7_tokenizer_totality " a b ".toList).2.2⟩

/-- C5: for an input without whitespace characters, concatenating the
lexemes of all tokens up to and including the first `END_OF_FILE`
reproduces the input exactly. -/
theorem claim_C5_roundtrip (s : List Char) (h : ∀ c ∈ s, isSpace c = false) :
    lexemes (tokenize s) = s := by
  rw [lexemes_tokenize]
  rw [List.filter_eq_self]
  intro a ha
  simp [h a ha]

/-- C5 witness: round-trip on the whitespace-free input `int2=10+;@`. -/
theorem claim_C5_witness :
    lexemes (tokenize "int2=10+;@".toList) = "int2=10+;@".toList :=
  claim_C5_roundtrip "int2=10+;@".toList (by decide)

/-- A term produced by `parseTerm` satisfies the node invariant. -/
lemma parseTerm_good {tokens : List Token} {i : Nat} {r : Option AstNode} {j : Nat}
    (h : parseTerm tokens i = some (r, j)) : goodTree r = true := by
  cases hp : peek tokens i with
  | none => rw [parseTerm, hp] at h; exact absurd h (by simp)
  | some t =>
    rw [parseTerm, hp] at h
    simp only [] at h
    by_cases ht : t.type = .INTEGER_LITERAL
    · rw [if_pos ht] at h
      simp only [Option.some.injEq, Prod.mk.injEq] at h
      obtain ⟨rfl, rfl⟩ := h
      simp [goodTree, ht]
    · rw [if_neg ht] at h
      simp only [Option.some.injEq, Prod.mk.injEq] at h
      obtain ⟨rfl, rfl⟩ := h
      simp [goodTree]

/-- The expression fold loop preserves the node invariant. -/
lemma parseExpressionLoop_good :
    ∀ (fuel : Nat) (tokens : List Token) (left : Option AstNode) (i : Nat)
      (r : Option AstNode) (j : Nat), goodTree left = true →
      parseExpressionLoop fuel tokens left i = some (r, j) → goodTree r = true := by
  intro fuel
  induction fuel with
  | zero =>
    intro tokens left i r j hl h
    exact absurd h (by simp [parseExpressionLoop])
  | succ fuel ih =>
    intro tokens left i r j hl h
    cases hp : peek tokens i with
    | none => simp [parseExpressionLoop, hp] at h
    | some op =>
      by_cases hop : op.type = .OPERATOR_PLUS ∨ op.type = .OPERATOR_MINUS
      · cases hpt : parseTerm tokens (advance tokens i) with
        | none => simp [parseExpressionLoop, hp, if_pos hop, hpt] at h
        | some pr =>
          cases pr with
          | mk ro j2 =>
            cases ro with
            | none =>
              simp only [parseExpressionLoop, hp, if_pos hop, hpt,
                Option.some.injEq, Prod.mk.injEq] at h
              obtain ⟨rfl, rfl⟩ := h
              simp [goodTree]
            | some right =>
              have hloop : parseExpressionLoop fuel tokens
                  (some (.BinaryOpNode left op (some right))) j2 = some (r, j) := by
                simpa only [parseExpressionLoop, hp, if_pos hop, hpt] using h
              have hr : goodTree (some right) = true := parseTerm_good hpt
              have hl2 : goodTree (some (.BinaryOpNode left op (some right))) = true := by
                rcases hop with hop | hop <;> simp [goodTree, hop, hl, hr]
              exact ih tokens _ j2 r j hl2 hloop
      · simp only [parseExpressionLoop, hp, if_neg hop,
          Option.some.injEq, Prod.mk.injEq] at h
        obtain ⟨rfl, rfl⟩ := h
        exact hl

/-- An expression produced by `parseExpression` satisfies the node
invariant. -/
lemma parseExpression_good {tokens : List Token} {i : Nat} {r : Option AstNode} {j : Nat}
    (h : parseExpression tokens i = some (r, j)) : goodTree r = true := by
  unfold parseExpression at h
  cases hpt : parseTerm tokens i with
  | none => rw [hpt] at h; exact absurd h (by simp)
  | some pr =>
    cases pr with
    | mk left i1 =>
      rw [hpt] at h
      exact parseExpressionLoop_good (tokens.length + 1) tokens left i1 r j
        (parseTerm_good hpt) h

/-- A declaration produced by `parseVariableDeclaration`, entered with an
`int` keyword under the cursor, satisfies the node invariant. -/
lemma parseVariableDeclaration_good {tokens : List Token} {i : Nat}
    {r : Option AstNode} {j : Nat} {ty : Token}
    (hp : peek tokens i = some ty) (hty : ty.type = .KEYWORD_INT)
    (h : parseVariableDeclaration tokens i = some (r, j)) : goodTree r = true := by
  rw [parseVariableDeclaration, hp] at h
  simp only [] at h
  cases hp1 : peek tokens (advance tokens i) with
  | none => rw [hp1] at h; exact absurd h (by simp)
  | some idt =>
    rw [hp1] at h
    simp only [] at h
    by_cases hid : idt.type = .IDENTIFIER
    · have hid' : ¬ idt.type ≠ .IDENTIFIER := fun hcon => hcon hid
      rw [if_neg hid'] at h
      cases hp2 : peek tokens (advance tokens (advance tokens i)) with
      | none => rw [hp2] at h; exact absurd h (by simp)
      | some eqt =>
        rw [hp2] at h
        simp only [] at h
        by_cases heq : eqt.type = .OPERATOR_ASSIGN
        · have heq' : ¬ eqt.type ≠ .OPERATOR_ASSIGN := fun hcon => hcon heq
          rw [if_neg heq'] at h
          cases hpe : parseExpression tokens
              (advance tokens (advance tokens (advance tokens i))) with
          | none => rw [hpe] at h; exact absurd h (by simp)
          | some pe =>
            cases pe with
            | mk re i3 =>
              rw [hpe] at h
              cases re with
              | none =>
                simp only [Option.some.injEq, Prod.mk.injEq] at h
                obtain ⟨rfl, rfl⟩ := h
                simp [goodTree]
              | some expr =>
                simp only [] at h
                cases hp3 : peek tokens i3 with
                | none => rw [hp3] at h; exact absurd h (by simp)
                | some semi =>
                  rw [hp3] at h
                  simp only [] at h
                  by_cases hsemi : semi.type = .PUNCTUATION_SEMICOLON
                  · have hsemi' : ¬ semi.type ≠ .PUNCTUATION_SEMICOLON := fun hcon => hcon hsemi
                    rw [if_neg hsemi'] at h
                    simp only [Option.some.injEq, Prod.mk.injEq] at h
                    obtain ⟨rfl, rfl⟩ := h
                    have hexpr : goodTree (some expr) = true := parseExpression_good hpe
                    simp [goodTree, hty, hid, hexpr]
                  · rw [if_pos hsemi] at h
                    simp only [Option.some.injEq, Prod.mk.injEq] at h
                    obtain ⟨rfl, rfl⟩ := h
                    simp [goodTree]
        · rw [if_pos heq] at h
          simp only [Option.some.injEq, Prod.mk.injEq] at h
          obtain ⟨rfl, rfl⟩ := h
          simp [goodTree]
    · rw [if_pos hid] at h
      simp only [Option.some.injEq, Prod.mk.injEq] at h
      obtain ⟨rfl, rfl⟩ := h
      simp [goodTree]

/-- A statement produced by `parseStatement` satisfies the node
invariant. -/
lemma parseStatement_good {tokens : List Token} {i : Nat} {r : Option AstNode} {j : Nat}
    (h : parseStatement tokens i = some (r, j)) : goodTree r = true := by
  cases hp : peek tokens i with
  | none => rw [parseStatement, hp] at h; exact absurd h (by simp)
  | some t =>
    rw [parseStatement, hp] at h
    simp only [] at h
    by_cases ht : t.type = .KEYWORD_INT
    · rw [if_pos ht] at h
      exact parseVariableDeclaration_good hp ht h
    · rw [if_neg ht] at h
      simp only [Option.some.injEq, Prod.mk.injEq] at h
      obtain ⟨rfl, rfl⟩ := h
      simp [goodTree]

/-- C8: whenever `parse` returns a tree, every node of the tree
satisfies: `BinaryOpNode` operators are `+` or `-`, `VarDeclNode` type
tokens are the `int` keyword and identifier tokens are identifiers, and
`NumberNode` tokens are integer literals. -/
theorem claim_C8_parse_invariants (tokens : List Token) (n : AstNode)
    (h : parse tokens = some (some n)) : goodTree (some n) = true := by
  unfold parse at h
  cases hs : parseStatement tokens 0 with
  | none => rw [hs] at h; exact absurd h (by simp)
  | some pr =>
    cases pr with
    | mk r i =>
      rw [hs] at h
      simp only [Option.some.injEq] at h
      subst h
      exact parseStatement_good hs

/-- C8 witness: the invariant evaluated on the tree parsed from
`"int result = 10 + 20;"`. -/
theorem claim_C8_witness :
    goodTree (some (.VarDeclNode ⟨.KEYWORD_INT, "int"⟩ ⟨.IDENTIFIER, "result"⟩
      (some (.BinaryOpNode (some (.NumberNode ⟨.INTEGER_LITERAL, "10"⟩))
        ⟨.OPERATOR_PLUS, "+"⟩ (some (.NumberNode ⟨.INTEGER_LITERAL, "20"⟩)))))) = true :=
  claim_C8_parse_invariants (tokenize "int result = 10 + 20;".toList) _ rfl

/-- A successful `peek` witnesses that the cursor is in bounds. -/
lemma peek_lt {tokens : List Token} {i : Nat} {t : Token}
    (h : peek tokens i = some t) : i < tokens.length := by
  by_contra hc
  rw [peek, List.get?_eq_none.mpr (by omega)] at h
  exact absurd h (by simp)

/-- An in-bounds cursor makes `peek` succeed. -/
lemma peek_some {tokens : List Token} {i : Nat} (hi : i < tokens.length) :
    ∃ t, peek tokens i = some t :=
  ⟨tokens.get ⟨i, hi⟩, by simp [peek, List.get?_eq_get hi]⟩

/-- Advancing below the length is an increment. -/
lemma advance_of_lt {tokens : List Token} {i : Nat} (hi : i < tokens.length) :
    advance tokens i = i + 1 := by
  simp [advance, hi]

/-- When the final token is `END_OF_FILE`, a non-`END_OF_FILE` token
under the cursor cannot sit at the final index, so the incremented cursor
stays in bounds. -/
lemma succ_lt_of_peek_ne_eof {tokens : List Token} {i : Nat} {t : Token}
    (hlast : ∀ u, tokens.get? (tokens.length - 1) = some u → u.type = .END_OF_FILE)
    (hp : peek tokens i = some t) (ht : t.type ≠ .END_OF_FILE) :
    i + 1 < tokens.length := by
  have hlt := peek_lt hp
  by_contra hc
  have hi : i = tokens.length - 1 := by omega
  subst hi
  exact ht (hlast t hp)

/-- Under an `END_OF_FILE`-terminated sequence, `parseTerm` at an
in-bounds cursor performs no out-of-bounds access: it either consumes one
literal (staying in bounds) or fails in place. -/
lemma parseTerm_safe {tokens : List Token} {i : Nat}
    (hlast : ∀ u, tokens.get? (tokens.length - 1) = some u → u.type = .END_OF_FILE)
    (hi : i < tokens.length) :
    (∃ nd, parseTerm tokens i = some (some nd, i + 1) ∧ i + 1 < tokens.length) ∨
    parseTerm tokens i = some (none, i) := by
  obtain ⟨t, hp⟩ := peek_some hi
  by_cases ht : t.type = .INTEGER_LITERAL
  · left
    refine ⟨.NumberNode t, ?_, ?_⟩
    · rw [parseTerm, hp]
      simp only []
      rw [if_pos ht, advance_of_lt hi]
    · refine succ_lt_of_peek_ne_eof hlast hp (fun hcon => ?_)
      rw [ht] at hcon
      exact absurd hcon (by decide)
  · right
    rw [parseTerm, hp]
    simp only []
    rw [if_neg ht]

/-- Under an `END_OF_FILE`-terminated sequence, the expression fold loop
performs no out-of-bounds access and finishes with an in-bounds cursor. -/
lemma parseExpressionLoop_safe :
    ∀ (fuel : Nat) (tokens : List Token) (left : Option AstNode) (i : Nat),
      (∀ u, tokens.get? (tokens.length - 1) = some u → u.type = .END_OF_FILE) →
      i < tokens.length → tokens.length - i < fuel →
      ∃ r j, parseExpressionLoop fuel tokens left i = some (r, j) ∧
        j < tokens.length := by
  intro fuel
  induction fuel with
  | zero => intro tokens left i hlast hi hf; omega
  | succ fuel ih =>
    intro tokens left i hlast hi hf
    obtain ⟨op, hp⟩ := peek_some hi
    by_cases hop : op.type = .OPERATOR_PLUS ∨ op.type = .OPERATOR_MINUS
    · have hne : op.type ≠ .END_OF_FILE := by
        rcases hop with h | h <;> rw [h] <;> decide
      have hi1 : i + 1 < tokens.length := succ_lt_of_peek_ne_eof hlast hp hne
      have hadv : advance tokens i = i + 1 := advance_of_lt hi
      rcases parseTerm_safe hlast hi1 with ⟨nd, hpt, hi2⟩ | hpt
      · obtain ⟨r, j, hloop, hj⟩ := ih tokens
          (some (.BinaryOpNode left op (some nd))) (i + 1 + 1) hlast hi2 (by omega)
        refine ⟨r, j, ?_, hj⟩
        simp only [parseExpressionLoop, hp, if_pos hop, hadv, hpt]
        exact hloop
      · refine ⟨none, i + 1, ?_, hi1⟩
        simp only [parseExpressionLoop, hp, if_pos hop, hadv, hpt]
    · refine ⟨left, i, ?_, hi⟩
      simp only [parseExpressionLoop, hp, if_neg hop]

/-- Under an `END_OF_FILE`-terminated sequence, `parseExpression` at an
in-bounds cursor performs no out-of-bounds access and finishes with an
in-bounds cursor. -/
lemma parseExpression_safe {tokens : List Token} {i : Nat}
    (hlast : ∀ u, tokens.get? (tokens.length - 1) = some u → u.type = .END_OF_FILE)
    (hi : i < tokens.length) :
    ∃ r j, parseExpression tokens i = some (r, j) ∧ j < tokens.length := by
  rcases parseTerm_safe hlast hi with ⟨nd, hpt, hi1⟩ | hpt
  · obtain ⟨r, j, hloop, hj⟩ := parseExpressionLoop_safe (tokens.length + 1) tokens
      (some nd) (i + 1) hlast hi1 (by omega)
    refine ⟨r, j, ?_, hj⟩
    simp only [parseExpression, hpt]
    exact hloop
  · obtain ⟨r, j, hloop, hj⟩ := parseExpressionLoop_safe (tokens.length + 1) tokens
      none i hlast hi (by omega)
    refine ⟨r, j, ?_, hj⟩
    simp only [parseExpression, hpt]
    exact hloop

/-- Under an `END_OF_FILE`-terminated sequence, `parseVariableDeclaration`
entered on an `int` keyword performs no out-of-bounds access. -/
lemma parseVariableDeclaration_safe {tokens : List Token} {i : Nat} {ty : Token}
    (hlast : ∀ u, tokens.get? (tokens.length - 1) = some u → u.type = .END_OF_FILE)
    (hp : peek tokens i = some ty) (hty : ty.type = .KEYWORD_INT) :
    ∃ r j, parseVariableDeclaration tokens i = some (r, j) := by
  have hi : i < tokens.length := peek_lt hp
  have hne : ty.type ≠ .END_OF_FILE := by rw [hty]; decide
  have hi1 : i + 1 < tokens.length := succ_lt_of_peek_ne_eof hlast hp hne
  have hadv1 : advance tokens i = i + 1 := advance_of_lt hi
  obtain ⟨idt, hp1⟩ := peek_some hi1
  by_cases hid : idt.type = .IDENTIFIER
  · have hid' : ¬ idt.type ≠ .IDENTIFIER := fun hcon => hcon hid
    have hne1 : idt.type ≠ .END_OF_FILE := by rw [hid]; decide
    have hi2 : i + 1 + 1 < tokens.length := succ_lt_of_peek_ne_eof hlast hp1 hne1
    have hadv2 : advance tokens (i + 1) = i + 1 + 1 := advance_of_lt hi1
    obtain ⟨eqt, hp2⟩ := peek_some hi2
    by_cases heq : eqt.type = .OPERATOR_ASSIGN
    · have heq' : ¬ eqt.type ≠ .OPERATOR_ASSIGN := fun hcon => hcon heq
      have hne2 : eqt.type ≠ .END_OF_FILE := by rw [heq]; decide
      have hi3 : i + 1 + 1 + 1 < tokens.length := succ_lt_of_peek_ne_eof hlast hp2 hne2
      have hadv3 : advance tokens (i + 1 + 1) = i + 1 + 1 + 1 := advance_of_lt hi2
      obtain ⟨re, j3, hpe, hj3⟩ := parseExpression_safe hlast hi3
      cases re with
      | none =>
        refine ⟨none, j3, ?_⟩
        simp only [parseVariableDeclaration, hp, hadv1, hp1,
          if_neg hid', hadv2, hp2,
          if_neg heq', hadv3, hpe]
      | some expr =>
        obtain ⟨semi, hp3⟩ := peek_some hj3
        by_cases hsemi : semi.type = .PUNCTUATION_SEMICOLON
        · have hsemi' : ¬ semi.type ≠ .PUNCTUATION_SEMICOLON := fun hcon => hcon hsemi
          refine ⟨some (.VarDeclNode ty idt (some expr)), advance tokens j3, ?_⟩
          simp only [parseVariableDeclaration, hp, hadv1, hp1,
            if_neg hid', hadv2, hp2,
            if_neg heq', hadv3, hpe, hp3,
            if_neg hsemi']
        · refine ⟨none, j3, ?_⟩
          simp only [parseVariableDeclaration, hp, hadv1, hp1,
            if_neg hid', hadv2, hp2,
            if_neg heq', hadv3, hpe, hp3, if_pos hsemi]
    · refine ⟨none, i + 1 + 1, ?_⟩
      simp only [parseVariableDeclaration, hp, hadv1, hp1,
        if_neg hid', hadv2, hp2, if_pos heq]
  · refine ⟨none, i + 1, ?_⟩
    simp only [parseVariableDeclaration, hp, hadv1, hp1, if_pos hid]

/-- C9: on a non-empty token sequence whose final element is the only
`END_OF_FILE` token, a `parse` run never reads out of bounds: the result
is never `none`, i.e. the out-of-bounds branch of every `peek` is
unreachable. -/
theorem claim_C9_peek_safety (tokens : List Token)
    (hne : tokens ≠ [])
    (hlast : ∀ u, tokens.get? (tokens.length - 1) = some u → u.type = .END_OF_FILE)
    (huniq : ∀ i u, tokens.get? i = some u → u.type = .END_OF_FILE →
      i = tokens.length - 1) :
    parse tokens ≠ none := by
  have hi0 : 0 < tokens.length := List.length_pos.mpr hne
  obtain ⟨t, hp⟩ := peek_some hi0
  by_cases ht : t.type = .KEYWORD_INT
  · obtain ⟨r, j, hv⟩ := parseVariableDeclaration_safe hlast hp ht
    simp [parse, parseStatement, hp, if_pos ht, hv]
  · simp [parse, parseStatement, hp, if_neg ht]

/-- C9 witness: the guarantee applied to the token sequence of
`"int x = 5;"`, which ends in its single `END_OF_FILE` token. -/
theorem claim_C9_witness :
    parse [⟨.KEYWORD_INT, "int"⟩, ⟨.IDENTIFIER, "x"⟩, ⟨.OPERATOR_ASSIGN, "="⟩,
      ⟨.INTEGER_LITERAL, "5"⟩, ⟨.PUNCTUATION_SEMICOLON, ";"⟩,
      ⟨.END_OF_FILE, ""⟩] ≠ none :=
  claim_C9_peek_safety _ (by simp)
    (by
      intro u hu
      simp only [List.length] at hu
      rw [show (6 : Nat) - 1 = 5 from rfl] at hu
      cases Option.some.inj hu
      rfl)
    (by
      intro i u hu heof
      match i, hu with
      | 0, hu => cases Option.some.inj hu; exact absurd heof (by decide)
      | 1, hu => cases Option.some.inj hu; exact absurd heof (by decide)
      | 2, hu => cases Option.some.inj hu; exact absurd heof (by decide)
      | 3, hu => cases Option.some.inj hu; exact absurd heof (by decide)
      | 4, hu => cases Option.some.inj hu; exact absurd heof (by decide)
      | 5, hu => rfl
      | n + 6, hu => exact absurd hu (by simp))

/-- Inversion of a successful `parseTerm`: the cursor was in bounds and
moved forward by one. -/
lemma parseTerm_some_some {tokens : List Token} {i : Nat} {nd : AstNode} {j : Nat}
    (h : parseTerm tokens i = some (some nd, j)) :
    i < tokens.length ∧ j = i + 1 := by
  cases hp : peek tokens i with
  | none => rw [parseTerm, hp] at h; exact absurd h (by simp)
  | some t =>
    have hi := peek_lt hp
    rw [parseTerm, hp] at h
    simp only [] at h
    by_cases ht : t.type = .INTEGER_LITERAL
    · rw [if_pos ht, advance_of_lt hi] at h
      simp only [Option.some.injEq, Prod.mk.injEq] at h
      exact ⟨hi, h.2.symm⟩
    · rw [if_neg ht] at h
      simp at h

/-- The fuel of the embedded expression loop is irrelevant as soon as it
exceeds the number of tokens left of the cursor: the 0-fuel branch is
unreachable for the fuel `tokens.length + 1` used by `parseExpression`. -/
lemma parseExpressionLoop_fuel_stable :
    ∀ (fuel fuel' : Nat) (tokens : List Token) (left : Option AstNode) (i : Nat),
      tokens.length - i < fuel → tokens.length - i < fuel' →
      parseExpressionLoop fuel tokens left i =
        parseExpressionLoop fuel' tokens left i := by
  intro fuel
  induction fuel with
  | zero => intro fuel' tokens left i hf hf'; omega
  | succ fuel ih =>
    intro fuel' tokens left i hf hf'
    obtain ⟨f2, rfl⟩ : ∃ f2, fuel' = f2 + 1 := ⟨fuel' - 1, by omega⟩
    cases hp : peek tokens i with
    | none => simp [parseExpressionLoop, hp]
    | some op =>
      have hi := peek_lt hp
      by_cases hop : op.type = .OPERATOR_PLUS ∨ op.type = .OPERATOR_MINUS
      · cases hpt : parseTerm tokens (advance tokens i) with
        | none => simp [parseExpressionLoop, hp, if_pos hop, hpt]
        | some pr =>
          cases pr with
          | mk ro j2 =>
            cases ro with
            | none => simp [parseExpressionLoop, hp, if_pos hop, hpt]
            | some right =>
              obtain ⟨hi1, hj2⟩ := parseTerm_some_some hpt
              rw [advance_of_lt hi] at hi1 hj2
              subst hj2
              simp only [parseExpressionLoop, hp, if_pos hop, hpt]
              exact ih f2 tokens (some (.BinaryOpNode left op (some right)))
                (i + 1 + 1) (by omega) (by omega)
      · simp [parseExpressionLoop, hp, if_neg hop]

/-- A successful `peek` is unchanged by appending tokens. -/
lemma peek_append {tokens e : List Token} {i : Nat} {t : Token}
    (h : peek tokens i = some t) : peek (tokens ++ e) i = some t := by
  have hi := peek_lt h
  rw [peek, List.get?_append hi]
  exact h

/-- An in-bounds `advance` is unchanged by appending tokens. -/
lemma advance_append {tokens e : List Token} {i : Nat} (hi : i < tokens.length) :
    advance (tokens ++ e) i = advance tokens i := by
  rw [advance_of_lt hi, advance_of_lt (by simp only [List.length_append]; omega)]

/-- A completed `parseTerm` run is unchanged by appending tokens. -/
lemma parseTerm_append {tokens e : List Token} {i : Nat} {r : Option AstNode} {j : Nat}
    (h : parseTerm tokens i = some (r, j)) :
    parseTerm (tokens ++ e) i = some (r, j) := by
  cases hp : peek tokens i with
  | none => rw [parseTerm, hp] at h; exact absurd h (by simp)
  | some t =>
    have hi := peek_lt hp
    rw [parseTerm, hp] at h
    simp only [] at h
    rw [parseTerm, peek_append (e := e) hp]
    simp only []
    by_cases ht : t.type = .INTEGER_LITERAL
    · rw [if_pos ht] at h ⊢
      rw [advance_append hi]
      exact h
    · rw [if_neg ht] at h ⊢
      exact h

/-- A completed expression fold loop is unchanged by appending tokens
(and by enlarging the fuel). -/
lemma parseExpressionLoop_append :
    ∀ (fuel fuel' : Nat) (tokens e : List Token) (left : Option AstNode)
      (i : Nat) (r : Option AstNode) (j : Nat), fuel ≤ fuel' →
      parseExpressionLoop fuel tokens left i = some (r, j) →
      parseExpressionLoop fuel' (tokens ++ e) left i = some (r, j) := by
  intro fuel
  induction fuel with
  | zero =>
    intro fuel' tokens e left i r j hle h
    exact absurd h (by simp [parseExpressionLoop])
  | succ fuel ih =>
    intro fuel' tokens e left i r j hle h
    obtain ⟨f2, rfl⟩ : ∃ f2, fuel' = f2 + 1 := ⟨fuel' - 1, by omega⟩
    cases hp : peek tokens i with
    | none => simp [parseExpressionLoop, hp] at h
    | some op =>
      have hi := peek_lt hp
      have hp' := peek_append (e := e) hp
      by_cases hop : op.type = .OPERATOR_PLUS ∨ op.type = .OPERATOR_MINUS
      · cases hpt : parseTerm tokens (advance tokens i) with
        | none => simp [parseExpressionLoop, hp, if_pos hop, hpt] at h
        | some pr =>
          cases pr with
          | mk ro j2 =>
            have hpt' : parseTerm (tokens ++ e) (advance (tokens ++ e) i) =
                some (ro, j2) := by
              rw [advance_append hi]
              exact parseTerm_append hpt
            cases ro with
            | none =>
              simp only [parseExpressionLoop, hp, if_pos hop, hpt] at h
              simp only [parseExpressionLoop, hp', if_pos hop, hpt']
              exact h
            | some right =>
              have hrec : parseExpressionLoop fuel tokens
                  (some (.BinaryOpNode left op (some right))) j2 = some (r, j) := by
                simpa only [parseExpressionLoop, hp, if_pos hop, hpt] using h
              simp only [parseExpressionLoop, hp', if_pos hop, hpt']
              exact ih f2 tokens e _ j2 r j (by omega) hrec
      · simp only [parseExpressionLoop, hp, if_neg hop] at h
        simp only [parseExpressionLoop, hp', if_neg hop]
        exact h

/-- A completed `parseExpression` run is unchanged by appending tokens. -/
lemma parseExpression_append {tokens e : List Token} {i : Nat}
    {r : Option AstNode} {j : Nat}
    (h : parseExpression tokens i = some (r, j)) :
    parseExpression (tokens ++ e) i = some (r, j) := by
  cases hpt : parseTerm tokens i with
  | none => rw [parseExpression, hpt] at h; exact absurd h (by simp)
  | some pr =>
    cases pr with
    | mk left i1 =>
      rw [parseExpression, hpt] at h
      simp only [] at h
      rw [parseExpression, parseTerm_append hpt]
      simp only []
      exact parseExpressionLoop_append (tokens.length + 1) ((tokens ++ e).length + 1)
        tokens e left i1 r j (by simp only [List.length_append]; omega) h

/-- A completed `parseVariableDeclaration` run is unchanged by appending
tokens. -/
lemma parseVariableDeclaration_append {tokens e : List Token} {i : Nat}
    {r : Option AstNode} {j : Nat}
    (h : parseVariableDeclaration tokens i = some (r, j)) :
    parseVariableDeclaration (tokens ++ e) i = some (r, j) := by
  cases hp : peek tokens i with
  | none => rw [parseVariableDeclaration, hp] at h; exact absurd h (by simp)
  | some ty =>
    have hi := peek_lt hp
    rw [parseVariableDeclaration, hp] at h
    simp only [] at h
    rw [parseVariableDeclaration, peek_append (e := e) hp]
    simp only [advance_append hi]
    cases hp1 : peek tokens (advance tokens i) with
    | none => rw [hp1] at h; exact absurd h (by simp)
    | some idt =>
      have hi1 := peek_lt hp1
      rw [hp1] at h
      simp only [] at h
      rw [peek_append (e := e) hp1]
      simp only [advance_append hi1]
      by_cases hid : idt.type = .IDENTIFIER
      · have hid' : ¬ idt.type ≠ .IDENTIFIER := fun hcon => hcon hid
        rw [if_neg hid'] at h ⊢
        cases hp2 : peek tokens (advance tokens (advance tokens i)) with
        | none => rw [hp2] at h; exact absurd h (by simp)
        | some eqt =>
          have hi2 := peek_lt hp2
          rw [hp2] at h
          simp only [] at h
          rw [peek_append (e := e) hp2]
          simp only [advance_append hi2]
          by_cases heq : eqt.type = .OPERATOR_ASSIGN
          · have heq' : ¬ eqt.type ≠ .OPERATOR_ASSIGN := fun hcon => hcon heq
            rw [if_neg heq'] at h ⊢
            cases hpe : parseExpression tokens
                (advance tokens (advance tokens (advance tokens i))) with
            | none => rw [hpe] at h; exact absurd h (by simp)
            | some pe =>
              cases pe with
              | mk re i3 =>
                rw [hpe] at h
                rw [parseExpression_append (e := e) hpe]
                cases re with
                | none => exact h
                | some expr =>
                  simp only [] at h ⊢
                  cases hp3 : peek tokens i3 with
                  | none => rw [hp3] at h; exact absurd h (by simp)
                  | some semi =>
                    have hj3 := peek_lt hp3
                    rw [hp3] at h
                    simp only [] at h
                    rw [peek_append (e := e) hp3]
                    simp only [advance_append hj3]
                    by_cases hsemi : semi.type = .PUNCTUATION_SEMICOLON
                    · have hsemi' : ¬ semi.type ≠ .PUNCTUATION_SEMICOLON :=
                        fun hcon => hcon hsemi
                      rw [if_neg hsemi'] at h ⊢
                      exact h
                    · rw [if_pos hsemi] at h ⊢
                      exact h
          · rw [if_pos heq] at h ⊢
            exact h
      · rw [if_pos hid] at h ⊢
        exact h

/-- A completed `parseStatement` run is unchanged by appending tokens. -/
lemma parseStatement_append {tokens e : List Token} {i : Nat}
    {r : Option AstNode} {j : Nat}
    (h : parseStatement tokens i = some (r, j)) :
    parseStatement (tokens ++ e) i = some (r, j) := by
  cases hp : peek tokens i with
  | none => rw [parseStatement, hp] at h; exact absurd h (by simp)
  | some t =>
    rw [parseStatement, hp] at h
    simp only [] at h
    rw [parseStatement, peek_append (e := e) hp]
    simp only []
    by_cases ht : t.type = .KEYWORD_INT
    · rw [if_pos ht] at h ⊢
      exact parseVariableDeclaration_append h
    · rw [if_neg ht] at h ⊢
      exact h

/-- C10: `parse` never inspects tokens after the parsed declaration: if
`parseStatement` completes a declaration consuming exactly the sequence
`pre` (ending in its semicolon), then `parse` on `pre` followed by any
trailing tokens returns the very same tree — trailing garbage before the
`END_OF_FILE` token is silently accepted. -/
theorem claim_C10_trailing_garbage (pre : List Token) (n : AstNode)
    (g1 g2 : List Token)
    (h : parseStatement pre 0 = some (some n, pre.length)) :
    parse (pre ++ g1) = some (some n) ∧ parse (pre ++ g2) = some (some n) := by
  have h1 := parseStatement_append (e := g1) h
  have h2 := parseStatement_append (e := g2) h
  constructor
  · rw [parse, h1]
  · rw [parse, h2]

/-- C10 witness: the declaration tokens of `"int x = 5;"` followed by an
`@` unknown token before `END_OF_FILE`, and by `END_OF_FILE` alone,
parse to the same tree. -/
theorem claim_C10_witness :
    parse ([⟨.KEYWORD_INT, "int"⟩, ⟨.IDENTIFIER, "x"⟩, ⟨.OPERATOR_ASSIGN, "="⟩,
        ⟨.INTEGER_LITERAL, "5"⟩, ⟨.PUNCTUATION_SEMICOLON, ";"⟩] ++
      [⟨.UNKNOWN, "@"⟩, ⟨.END_OF_FILE, ""⟩]) =
      some (some (.VarDeclNode ⟨.KEYWORD_INT, "int"⟩ ⟨.IDENTIFIER, "x"⟩
        (some (.NumberNode ⟨.INTEGER_LITERAL, "5"⟩)))) ∧
    parse ([⟨.KEYWORD_INT, "int"⟩, ⟨.IDENTIFIER, "x"⟩, ⟨.OPERATOR_ASSIGN, "="⟩,
        ⟨.INTEGER_LITERAL, "5"⟩, ⟨.PUNCTUATION_SEMICOLON, ";"⟩] ++
      [⟨.END_OF_FILE, ""⟩]) =
      some (some (.VarDeclNode ⟨.KEYWORD_INT, "int"⟩ ⟨.IDENTIFIER, "x"⟩
        (some (.NumberNode ⟨.INTEGER_LITERAL, "5"⟩)))) :=
  claim_C10_trailing_garbage
    [⟨.KEYWORD_INT, "int"⟩, ⟨.IDENTIFIER, "x"⟩, ⟨.OPERATOR_ASSIGN, "="⟩,
      ⟨.INTEGER_LITERAL, "5"⟩, ⟨.PUNCTUATION_SEMICOLON, ";"⟩]
    (.VarDeclNode ⟨.KEYWORD_INT, "int"⟩ ⟨.IDENTIFIER, "x"⟩
      (some (.NumberNode ⟨.INTEGER_LITERAL, "5"⟩)))
    [⟨.UNKNOWN, "@"⟩, ⟨.END_OF_FILE, ""⟩] [⟨.END_OF_FILE, ""⟩] rfl
